import Mathlib

/- Verification of the rlog live log viewer (src/main.rs) against its
   specification.  Strings are modelled as lists of characters and byte
   offsets as Nat; every scenario exercised below is ASCII, where the
   character count equals the byte count.  Whitespace and uppercase
   mappings are modelled on the ASCII subset actually used by the tool. -/

set_option autoImplicit false

namespace Rlog

/-- Whitespace test used to model Rust str trim (ASCII subset). -/
def isWSChar (ch : Char) : Bool :=
  ch = ' ' || ch = '\t' || ch = '\n' || ch = '\r'

/-- Model of Rust str trim: whitespace removed from the right end, then
from the left end (both orders agree). -/
def trimList (s : List Char) : List Char :=
  (((s.reverse).dropWhile isWSChar).reverse).dropWhile isWSChar

/-- Model of one BufRead read_line call on the bytes remaining at the read
point: the bytes up to and including the first newline, or all remaining
bytes when no newline occurs.  In particular a final unterminated line is
still returned, exactly as read_line does at end of file. -/
def takeLine : List Char → List Char
  | [] => []
  | ch :: s => if ch = '\n' then [ch] else ch :: takeLine s

/-- Total bytes of a batch of consumed lines. -/
def sumLens (ls : List (List Char)) : Nat :=
  (ls.map List.length).sum

/-- Fuel-driven model of the inner while loop of main: repeatedly
read_line from offset p, adding the byte length of each line to the
offset, until read_line returns zero bytes.  The fuel only bounds the
number of iterations; readLines below always supplies enough. -/
def readLinesF : Nat → List Char → Nat → Nat × List (List Char)
  | 0, _, p => (p, [])
  | fuel + 1, c, p =>
    if takeLine (c.drop p) = [] then (p, [])
    else ((readLinesF fuel c (p + (takeLine (c.drop p)).length)).1,
          takeLine (c.drop p) :: (readLinesF fuel c (p + (takeLine (c.drop p)).length)).2)

/-- The inner while loop of main, reading every available line from
offset p of content c and returning the final offset with the lines. -/
def readLines (c : List Char) (p : Nat) : Nat × List (List Char) :=
  readLinesF (c.length + 1 - p) c p

/-- One iteration of the poll loop of main, lines 93 to 104: if the file
size dropped below the cursor, reset the cursor to zero and reposition
the read point at the file start; then, if the size exceeds the cursor,
read all available lines, advancing the cursor by the byte length of each
line read.  Returns the new cursor and the raw lines consumed. -/
def pollCycle (c : List Char) (p : Nat) : Nat × List (List Char) :=
  let p1 := if c.length < p then 0 else p
  if p1 < c.length then readLines c p1 else (p1, [])

/-- Iterated poll cycles over a sequence of observed file contents,
recording the cursor value and the lines consumed after each cycle. -/
def cycleOuts : Nat → List (List Char) → List (Nat × List (List Char))
  | _, [] => []
  | p, c :: cs => pollCycle c p :: cycleOuts (pollCycle c p).1 cs

/-- The second content extends the first: growth with no truncation. -/
def growsTo (a b : List Char) : Prop :=
  b.take a.length = a

instance (a b : List Char) : Decidable (growsTo a b) := by
  unfold growsTo
  infer_instance

/-- Relation between consecutive cycle records: the cursor does not
decrease and the new cursor is the old one plus the bytes of the lines
consumed in the new cycle. -/
def stepRel (a b : Nat × List (List Char)) : Prop :=
  a.1 ≤ b.1 ∧ b.1 = a.1 + sumLens b.2

/-- Split at the first pipe character, when one exists: returns the text
before it and the text after it. -/
def breakAtPipe : List Char → Option (List Char × List Char)
  | [] => none
  | ch :: s =>
    if ch = '|' then some ([], s)
    else
      match breakAtPipe s with
      | none => none
      | some (pre, post) => some (ch :: pre, post)

/-- Model of Rust split on the pipe character: the delimiter-separated
segments, empty segments preserved.  Never returns an empty list. -/
def splitPipe : List Char → List (List Char)
  | [] => [[]]
  | ch :: s =>
    if ch = '|' then [] :: splitPipe s
    else
      match splitPipe s with
      | [] => [[ch]]
      | seg :: rest => (ch :: seg) :: rest

/-- Join segments back with pipe characters (inverse of splitPipe). -/
def joinPipe : List (List Char) → List Char
  | [] => []
  | [seg] => seg
  | seg :: seg2 :: rest => seg ++ '|' :: joinPipe (seg2 :: rest)

/-- Captures of the anchored lazy pattern built in main, line 88: n
non-greedy dot-star groups joined by escaped pipes.  Lazy matching
assigns each group the text up to the next pipe; the final group absorbs
the whole remainder, extra pipes included.  No match when fewer than
n - 1 pipes are present (and for n = 0, the pattern matches only the
empty line).  The caller excludes newlines, which no group can match. -/
def lazyCaptures : Nat → List Char → Option (List (List Char))
  | 0, s => if s = [] then some [] else none
  | 1, s => some [s]
  | n + 2, s =>
    match breakAtPipe s with
    | none => none
    | some (pre, post) =>
      match lazyCaptures (n + 1) post with
      | none => none
      | some caps => some (pre :: caps)

/-- parse_line from src/main.rs, lines 22 to 28: apply the schema regex
to a line and pair each header with its captured group, in order.  A dot
in the pattern never matches a newline, so a line containing one cannot
match the anchored pattern. -/
def parse_line (headers : List (List Char)) (line : List Char) :
    Option (List (List Char × List Char)) :=
  if '\n' ∈ line then none
  else
    match lazyCaptures headers.length line with
    | none => none
    | some caps => some (headers.zip caps)

/-- First-match association-list lookup, modelling indexing the captured
field map by field name.  The schema invariant keeps names unique, so
first match and last match agree.  A none result models the panic that
Rust HashMap indexing raises on a missing key. -/
def lookupField : List (List Char × List Char) → List Char → Option (List Char)
  | [], _ => none
  | (k, v) :: rest, key => if k = key then some v else lookupField rest key

/-- The DateTime field name. -/
def dtKey : List Char := ("DateTime").toList

/-- The Level field name. -/
def levelKey : List Char := ("Level").toList

/-- The Data field name. -/
def dataKey : List Char := ("Data").toList

/-- Lexicographic less-or-equal on character lists, modelling the Rust
byte-wise string ordering used by the date comparisons. -/
def lexLe : List Char → List Char → Bool
  | [], _ => true
  | _ :: _, [] => false
  | a :: s, b :: t => if a = b then lexLe s t else decide (a < b)

/-- Does the needle occur at the start of the haystack. -/
def startsWithB : List Char → List Char → Bool
  | _, [] => true
  | [], _ :: _ => false
  | a :: s, b :: t => (a = b) && startsWithB s t

/-- Model of Rust str contains: the needle occurs somewhere in the
haystack (an empty needle always occurs). -/
def containsSeq : List Char → List Char → Bool
  | [], needle => startsWithB [] needle
  | ch :: t, needle => startsWithB (ch :: t) needle || containsSeq t needle

/-- ASCII uppercase mapping for one character. -/
def upperChar (ch : Char) : Char :=
  if 'a' ≤ ch ∧ ch ≤ 'z' then Char.ofNat (ch.toNat - 32) else ch

/-- Model of Rust to_uppercase on the ASCII subset. -/
def upperAscii (s : List Char) : List Char :=
  s.map upperChar

/-- Terminal colors used by the viewer. -/
inductive TermColor where
  | white | blue | cyan | yellow | red | magenta | darkRed | darkMagenta | reset
  deriving DecidableEq

/-- get_color from src/main.rs, lines 7 to 19: color keyed by level. -/
def get_color (level : List Char) : TermColor :=
  if level = ("DEBUG").toList then TermColor.white
  else if level = ("INFO").toList then TermColor.blue
  else if level = ("NOTICE").toList then TermColor.cyan
  else if level = ("WARNING").toList then TermColor.yellow
  else if level = ("ERROR").toList then TermColor.red
  else if level = ("CRITICAL").toList then TermColor.magenta
  else if level = ("ALERT").toList then TermColor.darkRed
  else if level = ("EMERGENCY").toList then TermColor.darkMagenta
  else TermColor.reset

/-- Resolved filter options of main: substring word, level (stored
uppercased, as the argument loop uppercases it), and the two inclusive
date bounds. -/
structure FilterCfg where
  filterWord : Option (List Char)
  filterLevel : Option (List Char)
  fromDate : Option (List Char)
  toDate : Option (List Char)

/-- The configuration with every filter unset. -/
def cfg0 : FilterCfg := ⟨none, none, none, none⟩

/-- date_ok from main, lines 107 to 108: each configured bound indexes
the field map at DateTime (none models the panic on a missing key); the
conjunction of the two bounds short-circuits, so the upper bound runs
only when the lower bound check returned true. -/
def dateOk (cfg : FilterCfg) (fields : List (List Char × List Char)) : Option Bool :=
  match cfg.fromDate with
  | none =>
    match cfg.toDate with
    | none => some true
    | some td => (lookupField fields dtKey).map (fun dt => lexLe dt td)
  | some fd =>
    match lookupField fields dtKey with
    | none => none
    | some dt =>
      if lexLe fd dt then
        match cfg.toDate with
        | none => some true
        | some td => (lookupField fields dtKey).map (fun dt2 => lexLe dt2 td)
      else some false

/-- level_ok from main, line 110: case-insensitive equality against the
Level field, indexing the field map (none models the missing-key panic). -/
def levelOk (cfg : FilterCfg) (fields : List (List Char × List Char)) : Option Bool :=
  match cfg.filterLevel with
  | none => some true
  | some lvl => (lookupField fields levelKey).map (fun v => decide (upperAscii v = lvl))

/-- word_ok from main, line 111: substring match on the raw line,
including its delimiters and line terminator. -/
def wordOk (cfg : FilterCfg) (raw : List Char) : Bool :=
  match cfg.filterWord with
  | none => true
  | some w => containsSeq raw w

/-- The filter decision of main, lines 107 to 113: date_ok, level_ok and
word_ok are all computed (so either date lookup or the level lookup can
panic even when an earlier predicate is false) and the row passes when
all three are true. -/
def passes (cfg : FilterCfg) (fields : List (List Char × List Char))
    (raw : List Char) : Option Bool :=
  match dateOk cfg fields with
  | none => none
  | some d =>
    match levelOk cfg fields with
    | none => none
    | some l => some (d && l && wordOk cfg raw)

/-- Model of the Rust width format specifier on strings: left aligned,
space padded on the right up to the width; longer values are kept whole. -/
def padColumn (s : List Char) (w : Nat) : List Char :=
  s ++ List.replicate (w - s.length) ' '

/-- The per-column loop of main, lines 119 to 127: for each header, in
schema order, a Data column under the detailed flag prints the payload
through the opaque pretty formatter as its own block; any other column
(or Data under verbose) prints the field padded to the width at its
index, default 15 past the width list, followed by the literal
separator; Data with neither flag set is omitted.  Field values are
obtained by indexing the field map (none models the missing-key panic). -/
def renderCells (pretty : List Char → List Char) (widths : List Nat)
    (verbose detailed : Bool) (fields : List (List Char × List Char)) :
    Nat → List (List Char) → Option (List (List Char))
  | _, [] => some []
  | idx, h :: hs =>
    match
      (if h = dataKey ∧ detailed = true then
        match lookupField fields dataKey with
        | none => none
        | some v => some [pretty v ++ ['\n']]
      else if h ≠ dataKey ∨ verbose = true then
        match lookupField fields h with
        | none => none
        | some v => some [padColumn v (widths.getD idx 15) ++ [' ', '|', ' ']]
      else some []),
      renderCells pretty widths verbose detailed fields (idx + 1) hs
    with
    | some cell, some rest => some (cell ++ rest)
    | _, _ => none

/-- Row rendering of main, lines 114 to 130: the row color is selected
by indexing the field map at Level, unconditionally (none models the
panic on a missing Level field); then the cells are emitted in schema
order and the row is closed with a newline after the color reset. -/
def renderRow (pretty : List Char → List Char) (widths : List Nat)
    (verbose detailed : Bool) (headers : List (List Char))
    (fields : List (List Char × List Char)) :
    Option (TermColor × List (List Char)) :=
  match lookupField fields levelKey with
  | none => none
  | some lv =>
    match renderCells pretty widths verbose detailed fields 0 headers with
    | none => none
    | some cells => some (get_color (upperAscii lv), cells ++ [['\n']])

/-- Outcome of feeding one raw line through the loop body. -/
inductive LineOutcome where
  | panic
  | skipped
  | emitted (row : TermColor × List (List Char))
  deriving DecidableEq

/-- Boolean test for an emitted outcome. -/
def emittedB : LineOutcome → Bool
  | LineOutcome.emitted _ => true
  | _ => false

/-- The loop body of main, lines 106 to 131, for one raw line: trim and
parse it; on no match skip it silently; otherwise evaluate the filters
(panic propagates); on pass, render the row (panic propagates). -/
def processLine (cfg : FilterCfg) (pretty : List Char → List Char)
    (widths : List Nat) (verbose detailed : Bool)
    (headers : List (List Char)) (raw : List Char) : LineOutcome :=
  match parse_line headers (trimList raw) with
  | none => LineOutcome.skipped
  | some fields =>
    match passes cfg fields raw with
    | none => LineOutcome.panic
    | some false => LineOutcome.skipped
    | some true =>
      match renderRow pretty widths verbose detailed headers fields with
      | none => LineOutcome.panic
      | some row => LineOutcome.emitted row

/-- Schema extraction of main, lines 84 to 86: one read_line from the
start of the source, trimmed and split on the pipe character.  The
source is none when unreadable, which models the expect panic; an empty
readable source yields an empty header line without error, because
read_line returns zero bytes at end of file instead of failing. -/
def extractSchema (source : Option (List Char)) : Option (List (List Char)) :=
  match source with
  | none => none
  | some content => some (splitPipe (trimList (takeLine content)))

/-- The usage diagnostic of main, line 44. -/
def usageMsg : List Char :=
  ("Usage: log_viewer <log_file> [--filter WORD|--f WORD] [--level LEVEL|--l LEVEL] [--start DATE|--s DATE] [--to DATE|--t DATE] [--width W1,W2,...|--w W1,W2,...] [--verbose|--v] [--detailed|--V]").toList

/-- Startup argument checks of main, lines 42 to 52, as the process exit
code when startup terminates the process: both error paths print a
diagnostic and then return from main, which ends the process with status
zero; none means startup proceeds into the unbounded poll loop. -/
def mainStartup (args : List (List Char)) (fileOk : List Char → Bool) : Option Nat :=
  if args.length < 2 then some 0
  else if fileOk (args.getD 1 []) = false then some 0
  else none

/-- The diagnostic printed by the startup checks, when any. -/
def startupMessage (args : List (List Char)) (fileOk : List Char → Bool) :
    Option (List Char) :=
  if args.length < 2 then some usageMsg
  else if fileOk (args.getD 1 []) = false then
    some (("File not found: ").toList ++ args.getD 1 [])
  else none

/-- Modelled from the spec: the row shape claimed for non-opaque columns,
value at position i padded to the width at list index i with default 15,
followed by the literal separator, in schema order.  Stated separately
so the code-side renderCells can be compared against it. -/
def specCells : List (List Char) → List Nat → Nat → List (List Char)
  | [], _, _ => []
  | v :: vs, widths, idx =>
    (padColumn v (widths.getD idx 15) ++ [' ', '|', ' ']) :: specCells vs widths (idx + 1)

/-! Lemmas about the tail cursor. -/

theorem takeLine_ne_nil {l : List Char} (h : l ≠ []) : takeLine l ≠ [] := by
  cases l with
  | nil => exact absurd rfl h
  | cons ch s => by_cases hc : ch = '\n' <;> simp [takeLine, hc]

theorem takeLine_eq_nil {l : List Char} (h : takeLine l = []) : l = [] := by
  by_contra hne
  exact takeLine_ne_nil hne h

theorem takeLine_length_le (l : List Char) : (takeLine l).length ≤ l.length := by
  induction l with
  | nil => simp [takeLine]
  | cons ch s ih =>
    by_cases hc : ch = '\n'
    all_goals simp [takeLine, hc]
    all_goals omega

theorem sumLens_nil : sumLens [] = 0 := rfl

theorem sumLens_cons (a : List Char) (l : List (List Char)) :
    sumLens (a :: l) = a.length + sumLens l := by
  simp [sumLens]

theorem readLinesF_fst (fuel : Nat) :
    ∀ (c : List Char) (p : Nat),
      (readLinesF fuel c p).1 = p + sumLens (readLinesF fuel c p).2 := by
  induction fuel with
  | zero => intro c p; simp [readLinesF, sumLens]
  | succ f ih =>
    intro c p
    by_cases h : takeLine (c.drop p) = []
    · simp [readLinesF, h, sumLens]
    · simp only [readLinesF, h, if_neg, ite_false, sumLens_cons]
      rw [ih c (p + (takeLine (c.drop p)).length)]
      omega

theorem readLinesF_fst_eq (fuel : Nat) :
    ∀ (c : List Char) (p : Nat), p ≤ c.length → c.length ≤ p + fuel →
      (readLinesF fuel c p).1 = c.length := by
  induction fuel with
  | zero =>
    intro c p h1 h2
    simp only [readLinesF]
    omega
  | succ f ih =>
    intro c p h1 h2
    by_cases h : takeLine (c.drop p) = []
    · have hd : c.drop p = [] := takeLine_eq_nil h
      have : c.length ≤ p := by
        have := congrArg List.length hd
        simp at this
        omega
      simp only [readLinesF, h, ite_true]
      omega
    · have hpos : 1 ≤ (takeLine (c.drop p)).length := by
        rcases hl : takeLine (c.drop p) with _ | ⟨a, t⟩
        · exact absurd hl h
        · simp
      have hle : (takeLine (c.drop p)).length ≤ c.length - p := by
        have h1' := takeLine_length_le (c.drop p)
        simp at h1'
        omega
      simp only [readLinesF, h, ite_false]
      exact ih c (p + (takeLine (c.drop p)).length) (by omega) (by omega)

theorem pollCycle_spec (c : List Char) (p : Nat) (h : p ≤ c.length) :
    (pollCycle c p).1 = c.length ∧
    (pollCycle c p).1 = p + sumLens (pollCycle c p).2 := by
  have hnr : ¬ (c.length < p) := by omega
  by_cases hg : p < c.length
  · simp only [pollCycle, if_neg hnr, if_pos hg, readLines]
    refine ⟨readLinesF_fst_eq _ c p h (by omega), readLinesF_fst _ c p⟩
  · have hpe : p = c.length := by omega
    simp [pollCycle, hnr, hg, sumLens, hpe]

theorem growsTo_length {a b : List Char} (h : growsTo a b) :
    a.length ≤ b.length := by
  have hl := congrArg List.length h
  simp [List.length_take] at hl
  omega

theorem chain_cycleOuts :
    ∀ (contents : List (List Char)) (p0 : Nat) (ls0 : List (List Char)),
      (∀ c, contents.head? = some c → p0 ≤ c.length) →
      List.Chain' growsTo contents →
      List.Chain' stepRel ((p0, ls0) :: cycleOuts p0 contents) := by
  intro contents
  induction contents with
  | nil => intro p0 ls0 _ _; simp [cycleOuts]
  | cons c cs ih =>
    intro p0 ls0 hhead hchain
    have hp : p0 ≤ c.length := hhead c rfl
    have hspec := pollCycle_spec c p0 hp
    have hout : cycleOuts p0 (c :: cs) = pollCycle c p0 :: cycleOuts (pollCycle c p0).1 cs := rfl
    rw [hout]
    refine List.chain'_cons.mpr ⟨⟨by omega, hspec.2⟩, ?_⟩
    have hhead' : ∀ c2, cs.head? = some c2 → (pollCycle c p0).1 ≤ c2.length := by
      intro c2 h2
      cases cs with
      | nil => simp at h2
      | cons c3 cs3 =>
        have h3 : c3 = c2 := by simpa using h2
        have hgrow : growsTo c c3 := (List.chain'_cons.mp hchain).1
        have hlen := growsTo_length hgrow
        rw [← h3]
        omega
    have := ih (pollCycle c p0).1 (pollCycle c p0).2 hhead' (List.Chain'.tail hchain)
    rcases hq : pollCycle c p0 with ⟨q, ls⟩
    rw [hq] at this
    simpa using this

/-- Claim C1: across poll cycles over file contents that only grow (each
content extends the previous one) starting from a cursor inside the
first content, the cursor never decreases and after each cycle it equals
its previous value plus the total bytes of the lines consumed in that
cycle (so it always equals the starting offset plus all bytes consumed
so far); and whenever the observed file size is smaller than the cursor,
the cycle behaves exactly as a cycle started at cursor zero: the cursor
is reset to zero and reading restarts at the file start. -/
theorem c1_cursor_tracking :
    (∀ (contents : List (List Char)) (p0 : Nat),
      (∀ c, contents.head? = some c → p0 ≤ c.length) →
      List.Chain' growsTo contents →
      List.Chain' stepRel ((p0, ([] : List (List Char))) :: cycleOuts p0 contents)) ∧
    (∀ (c : List Char) (p : Nat), c.length < p → pollCycle c p = pollCycle c 0) := by
  constructor
  · intro contents p0 hh hc
    exact chain_cycleOuts contents p0 [] hh hc
  · intro c p h
    simp [pollCycle, h]

/-- Witness for claim C1 at concrete contents. -/
theorem c1_cursor_tracking_witness :
    List.Chain' stepRel
      ((2, ([] : List (List Char))) ::
        cycleOuts 2 [("H\nx\n").toList, ("H\nx\nyy\n").toList]) ∧
    pollCycle (("ab").toList) 9 = pollCycle (("ab").toList) 0 := by
  constructor
  · refine c1_cursor_tracking.1 [("H\nx\n").toList, ("H\nx\nyy\n").toList] 2 ?_ ?_
    · intro c hc
      simp [List.head?] at hc
      rw [← hc]
      decide
    · exact List.chain'_cons.mpr ⟨by decide, List.chain'_singleton _⟩
  · exact c1_cursor_tracking.2 (("ab").toList) 9 (by decide)

/-! Lemmas about the line matcher. -/

theorem splitPipe_ne_nil (s : List Char) : splitPipe s ≠ [] := by
  cases s with
  | nil => simp [splitPipe]
  | cons ch t =>
    by_cases hc : ch = '|'
    · simp [splitPipe, hc]
    · rcases h : splitPipe t with _ | ⟨seg, rest⟩ <;> simp [splitPipe, hc, h]

theorem splitPipe_of_breakAtPipe_none :
    ∀ (s : List Char), breakAtPipe s = none → splitPipe s = [s] := by
  intro s
  induction s with
  | nil => intro _; rfl
  | cons ch t ih =>
    intro h
    by_cases hc : ch = '|'
    · simp [breakAtPipe, hc] at h
    · rcases hb : breakAtPipe t with _ | ⟨pre, post⟩
      · have ht := ih hb
        simp [splitPipe, hc, ht]
      · simp [breakAtPipe, hc, hb] at h

theorem splitPipe_of_breakAtPipe :
    ∀ (s pre post : List Char), breakAtPipe s = some (pre, post) →
      splitPipe s = pre :: splitPipe post := by
  intro s
  induction s with
  | nil => intro pre post h; simp [breakAtPipe] at h
  | cons ch t ih =>
    intro pre post h
    by_cases hc : ch = '|'
    · simp [breakAtPipe, hc] at h
      rcases h with ⟨h1, h2⟩
      subst h1
      subst h2
      simp [splitPipe, hc]
    · rcases hb : breakAtPipe t with _ | ⟨p2, q2⟩
      · simp [breakAtPipe, hc, hb] at h
      · simp [breakAtPipe, hc, hb] at h
        rcases h with ⟨h1, h2⟩
        subst h1
        subst h2
        simp [splitPipe, hc, ih p2 q2 hb]

theorem joinPipe_splitPipe : ∀ (s : List Char), joinPipe (splitPipe s) = s := by
  intro s
  induction s with
  | nil => rfl
  | cons ch t ih =>
    by_cases hc : ch = '|'
    · rcases h : splitPipe t with _ | ⟨seg, rest⟩
      · exact absurd h (splitPipe_ne_nil t)
      · have iht := ih
        rw [h] at iht
        simp [splitPipe, hc, h, joinPipe, iht]
    · rcases h : splitPipe t with _ | ⟨seg, rest⟩
      · exact absurd h (splitPipe_ne_nil t)
      · have iht := ih
        rw [h] at iht
        rcases rest with _ | ⟨seg2, rest2⟩
        · simp [splitPipe, hc, h, joinPipe]
          simpa [joinPipe] using iht
        · simp [splitPipe, hc, h, joinPipe]
          simpa [joinPipe] using iht

theorem lazyCaptures_succ (n : Nat) :
    ∀ (s : List Char),
      lazyCaptures (n + 1) s =
        if (splitPipe s).length < n + 1 then none
        else some ((splitPipe s).take n ++ [joinPipe ((splitPipe s).drop n)]) := by
  induction n with
  | zero =>
    intro s
    have h1 : ¬ ((splitPipe s).length < 1) := by
      rcases h : splitPipe s with _ | ⟨a, l⟩
      · exact absurd h (splitPipe_ne_nil s)
      · simp
    rw [if_neg h1]
    simp [lazyCaptures, joinPipe_splitPipe]
  | succ m ih =>
    intro s
    rcases hb : breakAtPipe s with _ | ⟨pre, post⟩
    · have hs := splitPipe_of_breakAtPipe_none s hb
      rw [hs]
      simp only [lazyCaptures, hb]
      rw [if_pos (by simp)]
    · have hs := splitPipe_of_breakAtPipe s pre post hb
      rw [hs]
      simp only [lazyCaptures, hb]
      rw [ih post]
      by_cases hlen : (splitPipe post).length < m + 1
      · rw [if_pos hlen, if_pos (by simp only [List.length_cons]; omega)]
      · rw [if_neg hlen, if_neg (by simp only [List.length_cons]; omega)]
        simp [List.take_succ_cons, List.drop_succ_cons]

theorem take_join_len :
    ∀ (l : List (List Char)) (a : List Char),
      (a :: l).take l.length ++ [joinPipe ((a :: l).drop l.length)] = a :: l := by
  intro l
  induction l with
  | nil => intro a; simp [joinPipe]
  | cons b t ih =>
    intro a
    simp only [List.length_cons, List.take_succ_cons, List.drop_succ_cons]
    rw [List.cons_append, ih b]

theorem parse_line_self (s : List Char) (h : '\n' ∉ s) :
    parse_line (splitPipe s) s = some ((splitPipe s).zip (splitPipe s)) := by
  rcases hs : splitPipe s with _ | ⟨a, l⟩
  · exact absurd hs (splitPipe_ne_nil s)
  · have hcap := lazyCaptures_succ l.length s
    rw [hs] at hcap
    rw [if_neg (by simp)] at hcap
    rw [take_join_len l a] at hcap
    simp only [parse_line, if_neg h, List.length_cons]
    rw [hcap]

/-- Claim C3 (amended): with a schema of N names (N at least 1) and a
line free of newline characters, the matcher returns no match exactly
when the line has fewer than N pipe-separated segments; with exactly N
segments it pairs each schema name with the corresponding segment in
order; with more than N segments the line still matches, the first
N - 1 names paired with the first N - 1 segments and the last name
absorbing the entire remainder, extra delimiters included. -/
theorem c3_match_arity (h0 : List Char) (hs : List (List Char)) (line : List Char)
    (hnl : '\n' ∉ line) :
    (parse_line (h0 :: hs) line = none ↔ (splitPipe line).length < hs.length + 1) ∧
    ((splitPipe line).length = hs.length + 1 →
      parse_line (h0 :: hs) line = some ((h0 :: hs).zip (splitPipe line))) ∧
    (hs.length + 1 ≤ (splitPipe line).length →
      parse_line (h0 :: hs) line =
        some ((h0 :: hs).zip
          ((splitPipe line).take hs.length ++
            [joinPipe ((splitPipe line).drop hs.length)]))) := by
  have hcap := lazyCaptures_succ hs.length line
  have hpl : parse_line (h0 :: hs) line =
      (if (splitPipe line).length < hs.length + 1 then none
       else some ((h0 :: hs).zip
         ((splitPipe line).take hs.length ++
           [joinPipe ((splitPipe line).drop hs.length)]))) := by
    simp only [parse_line, if_neg hnl, List.length_cons]
    rw [hcap]
    by_cases hc : (splitPipe line).length < hs.length + 1
    · rw [if_pos hc, if_pos hc]
    · rw [if_neg hc, if_neg hc]
  refine ⟨?_, ?_, ?_⟩
  · rw [hpl]
    by_cases hc : (splitPipe line).length < hs.length + 1
    · simp [hc]
    · simp [hc]
  · intro he
    rw [hpl, if_neg (by omega)]
    rcases hsp : splitPipe line with _ | ⟨a, l⟩
    · exact absurd hsp (splitPipe_ne_nil line)
    · have hll : l.length = hs.length := by
        rw [hsp] at he
        simpa using he
      rw [← hll, take_join_len l a]
  · intro hge
    rw [hpl, if_neg (by omega)]

/-- Witness for claim C3 at a line with exactly two segments. -/
theorem c3_match_arity_witness :
    parse_line [("A").toList, ("B").toList] (("x|y").toList) =
      some ([("A").toList, ("B").toList].zip (splitPipe (("x|y").toList))) :=
  (c3_match_arity (("A").toList) [("B").toList] (("x|y").toList) (by decide)).2.1
    (by decide)

/-- Counterexample to claim C3 as stated: a line with three segments
against a two-name schema does not yield no match; it matches, the
second name capturing the remainder with its extra delimiter. -/
theorem c3_match_arity_cex :
    parse_line [("A").toList, ("B").toList] (("x|y|z").toList) =
      some [(("A").toList, ("x").toList), (("B").toList, ("y|z").toList)] := by
  decide

/-- Claim C2: evaluation of the code at the failing input.  With header
Level and a writer that appends the line abc in two chunks, first ab
with no terminator and then c with the terminator, the first poll cycle
consumes the unterminated fragment ab as if it were a complete line,
advancing the cursor from 6 past it to 8, and the loop body emits it as
a truncated row; the next cycle then reads the remnant and emits a
second truncated row.  The claim requires the partial line to be left
unconsumed, the cursor not to advance, and the line to be reported
exactly once, complete; the code does none of this, because read_line
returns the bytes of a final unterminated line instead of waiting. -/
theorem c2_partial_line_consumed :
    pollCycle (("Level\nab").toList) 6 = (8, [("ab").toList]) ∧
    emittedB (processLine cfg0 (fun x => x) [2] false false
      [("Level").toList] (("ab").toList)) = true ∧
    pollCycle (("Level\nabc\n").toList) 8 = (10, [("c\n").toList]) ∧
    emittedB (processLine cfg0 (fun x => x) [2] false false
      [("Level").toList] (("c\n").toList)) = true := by
  refine ⟨by decide, by decide, by decide, by decide⟩

/-! Lemmas about field lookup and the filter set. -/

theorem lookupField_zip_not_mem :
    ∀ (headers caps : List (List Char)) (k : List Char), k ∉ headers →
      lookupField (headers.zip caps) k = none := by
  intro headers
  induction headers with
  | nil => intro caps k _; simp [lookupField]
  | cons h t ih =>
    intro caps k hk
    cases caps with
    | nil => simp [lookupField]
    | cons w ws =>
      have hne : h ≠ k := by
        intro he
        exact hk (he ▸ List.mem_cons_self h t)
      simp only [List.zip_cons_cons, lookupField, if_neg hne]
      exact ih ws k (fun hm => hk (List.mem_cons_of_mem h hm))

theorem lookupField_zip_nodup :
    ∀ (headers caps : List (List Char)) (k v : List Char), headers.Nodup →
      (k, v) ∈ headers.zip caps → lookupField (headers.zip caps) k = some v := by
  intro headers
  induction headers with
  | nil => intro caps k v _ hm; simp at hm
  | cons h t ih =>
    intro caps k v hnd hm
    cases caps with
    | nil => simp at hm
    | cons w ws =>
      simp only [List.zip_cons_cons] at hm ⊢
      rcases List.mem_cons.mp hm with heq | htail
      · simp only [Prod.mk.injEq] at heq
        rcases heq with ⟨hk, hv⟩
        subst hk
        subst hv
        simp [lookupField]
      · have hkt : k ∈ t := (List.of_mem_zip htail).1
        have hne : h ≠ k := by
          intro he
          subst he
          exact (List.nodup_cons.mp hnd).1 hkt
        simp only [lookupField, if_neg hne]
        exact ih ws k v (List.nodup_cons.mp hnd).2 htail

theorem passes_true_parts {cfg : FilterCfg} {fields : List (List Char × List Char)}
    {raw : List Char} (h : passes cfg fields raw = some true) :
    dateOk cfg fields = some true ∧ levelOk cfg fields = some true ∧
      wordOk cfg raw = true := by
  rcases hd : dateOk cfg fields with _ | d
  · simp [passes, hd] at h
  · rcases hl : levelOk cfg fields with _ | l
    · simp [passes, hd, hl] at h
    · simp only [passes, hd, hl] at h
      have h3 : (d && l && wordOk cfg raw) = true := by simpa using h
      simp only [Bool.and_eq_true] at h3
      rcases h3 with ⟨⟨hdt, hlt⟩, hw⟩
      exact ⟨by rw [hdt], by rw [hlt], hw⟩

theorem dateOk_drop_from {cfg : FilterCfg} {fields : List (List Char × List Char)}
    (h : dateOk cfg fields = some true) :
    dateOk { cfg with fromDate := none } fields = some true := by
  rcases hf : cfg.fromDate with _ | fd
  · have e : dateOk { cfg with fromDate := none } fields = dateOk cfg fields := by
      simp [dateOk, hf]
    rw [e]
    exact h
  · simp only [dateOk, hf] at h
    rcases hdt : lookupField fields dtKey with _ | dt
    · simp [hdt] at h
    · simp only [hdt, Option.map_some'] at h
      by_cases hlex : lexLe fd dt = true
      · rw [if_pos hlex] at h
        rcases ht : cfg.toDate with _ | td
        · simp [dateOk, ht]
        · simp only [ht] at h
          have hlt : lexLe dt td = true := by simpa using h
          simp [dateOk, ht, hdt, hlt]
      · rw [if_neg hlex] at h
        simp at h

theorem dateOk_drop_to {cfg : FilterCfg} {fields : List (List Char × List Char)}
    (h : dateOk cfg fields = some true) :
    dateOk { cfg with toDate := none } fields = some true := by
  rcases hf : cfg.fromDate with _ | fd
  · simp [dateOk, hf]
  · simp only [dateOk, hf] at h
    rcases hdt : lookupField fields dtKey with _ | dt
    · simp [hdt] at h
    · simp only [hdt, Option.map_some'] at h
      by_cases hlex : lexLe fd dt = true
      · simp [dateOk, hf, hdt, hlex]
      · rw [if_neg hlex] at h
        simp at h

/-- Claim C4: the filter decision is the conjunction of the date, level
and word predicates, each defaulting to true when its option is unset
(with every filter unset every row passes); and unsetting any one of the
four options preserves acceptance: a row that passed still passes, so
removal of a filter can only turn rejection into acceptance. -/
theorem c4_filter_and_monotone :
    (∀ (fields : List (List Char × List Char)) (raw : List Char),
      passes cfg0 fields raw = some true) ∧
    (∀ (cfg : FilterCfg) (fields : List (List Char × List Char)) (raw : List Char)
        (d l : Bool), dateOk cfg fields = some d → levelOk cfg fields = some l →
      passes cfg fields raw = some (d && l && wordOk cfg raw)) ∧
    (∀ (cfg : FilterCfg) (fields : List (List Char × List Char)) (raw : List Char),
      passes cfg fields raw = some true →
      passes { cfg with filterWord := none } fields raw = some true) ∧
    (∀ (cfg : FilterCfg) (fields : List (List Char × List Char)) (raw : List Char),
      passes cfg fields raw = some true →
      passes { cfg with filterLevel := none } fields raw = some true) ∧
    (∀ (cfg : FilterCfg) (fields : List (List Char × List Char)) (raw : List Char),
      passes cfg fields raw = some true →
      passes { cfg with fromDate := none } fields raw = some true) ∧
    (∀ (cfg : FilterCfg) (fields : List (List Char × List Char)) (raw : List Char),
      passes cfg fields raw = some true →
      passes { cfg with toDate := none } fields raw = some true) := by
  refine ⟨?_, ?_, ?_, ?_, ?_, ?_⟩
  · intro fields raw
    rfl
  · intro cfg fields raw d l h1 h2
    simp [passes, h1, h2]
  · intro cfg fields raw h
    obtain ⟨hd, hl, hw⟩ := passes_true_parts h
    have e1 : dateOk { cfg with filterWord := none } fields = dateOk cfg fields := rfl
    have e2 : levelOk { cfg with filterWord := none } fields = levelOk cfg fields := rfl
    simp [passes, e1, e2, hd, hl, wordOk]
  · intro cfg fields raw h
    obtain ⟨hd, hl, hw⟩ := passes_true_parts h
    have e1 : dateOk { cfg with filterLevel := none } fields = dateOk cfg fields := rfl
    have e2 : wordOk { cfg with filterLevel := none } raw = wordOk cfg raw := rfl
    have e3 : levelOk { cfg with filterLevel := none } fields = some true := by
      simp [levelOk]
    simp [passes, e1, e2, e3, hd, hw]
  · intro cfg fields raw h
    obtain ⟨hd, hl, hw⟩ := passes_true_parts h
    have e1 : levelOk { cfg with fromDate := none } fields = levelOk cfg fields := rfl
    have e2 : wordOk { cfg with fromDate := none } raw = wordOk cfg raw := rfl
    simp [passes, dateOk_drop_from hd, e1, e2, hl, hw]
  · intro cfg fields raw h
    obtain ⟨hd, hl, hw⟩ := passes_true_parts h
    have e1 : levelOk { cfg with toDate := none } fields = levelOk cfg fields := rfl
    have e2 : wordOk { cfg with toDate := none } raw = wordOk cfg raw := rfl
    simp [passes, dateOk_drop_to hd, e1, e2, hl, hw]

/-- Witness for claim C4: dropping a configured word filter from an
accepting configuration keeps the row accepted. -/
theorem c4_filter_and_monotone_witness :
    passes { (⟨some (("a").toList), none, none, none⟩ : FilterCfg) with
      filterWord := none } [] (("abc").toList) = some true :=
  c4_filter_and_monotone.2.2.1 ⟨some (("a").toList), none, none, none⟩ []
    (("abc").toList) (by decide)

/-- Claim C5: on a matched line whose schema lacks the DateTime name
while a date bound is configured, or lacks the Level name while a level
filter is configured, the filter evaluation is the missing-key panic
(modelled none), not a boolean. -/
theorem c5_missing_field_panic (cfg : FilterCfg) (headers caps : List (List Char))
    (raw : List Char)
    (h : ((cfg.fromDate ≠ none ∨ cfg.toDate ≠ none) ∧ dtKey ∉ headers) ∨
         (cfg.filterLevel ≠ none ∧ levelKey ∉ headers)) :
    passes cfg (headers.zip caps) raw = none := by
  rcases h with ⟨hdate, hdt⟩ | ⟨hlvl, hlv⟩
  · have hlook := lookupField_zip_not_mem headers caps dtKey hdt
    have hdOk : dateOk cfg (headers.zip caps) = none := by
      rcases hf : cfg.fromDate with _ | fd
      · rcases ht : cfg.toDate with _ | td
        · rcases hdate with h1 | h2
          · exact absurd hf h1
          · exact absurd ht h2
        · simp [dateOk, hf, ht, hlook]
      · simp [dateOk, hf, hlook]
    simp [passes, hdOk]
  · have hlook := lookupField_zip_not_mem headers caps levelKey hlv
    have hlOk : levelOk cfg (headers.zip caps) = none := by
      rcases hl : cfg.filterLevel with _ | lvl
      · exact absurd hl hlvl
      · simp [levelOk, hl, hlook]
    rcases hd : dateOk cfg (headers.zip caps) with _ | d
    · simp [passes, hd]
    · simp [passes, hd, hlOk]

/-- Witness for claim C5: a level filter over a schema without Level. -/
theorem c5_missing_field_panic_witness :
    passes ⟨none, some (("ERROR").toList), none, none⟩
      ([("A").toList].zip [("x").toList]) (("x").toList) = none :=
  c5_missing_field_panic ⟨none, some (("ERROR").toList), none, none⟩
    [("A").toList] [("x").toList] (("x").toList) (by decide)

/-! Lemmas about the row renderer. -/

theorem renderCells_formula (pretty : List Char → List Char) (widths : List Nat)
    (v d : Bool) (fields : List (List Char × List Char)) :
    ∀ (cols : List (List Char × List Char)) (idx : Nat),
      (∀ hv ∈ cols, lookupField fields hv.1 = some hv.2 ∧ hv.1 ≠ dataKey) →
      renderCells pretty widths v d fields idx (cols.map Prod.fst) =
        some (specCells (cols.map Prod.snd) widths idx) := by
  intro cols
  induction cols with
  | nil => intro idx _; simp [renderCells, specCells]
  | cons hv rest ih =>
    intro idx hall
    rcases hv with ⟨h, val⟩
    have hhv := hall (h, val) (List.mem_cons_self _ _)
    have hlk : lookupField fields h = some val := hhv.1
    have hnd : h ≠ dataKey := hhv.2
    have hrest := ih (idx + 1) (fun hv2 hm => hall hv2 (List.mem_cons_of_mem _ hm))
    simp only [List.map_cons, renderCells]
    rw [if_neg (fun hc => hnd hc.1), if_pos (Or.inl hnd)]
    simp only [hlk, hrest]
    simp [specCells]

/-- Claim C6 (amended): on a schema without the opaque Data name, every
field is rendered in schema order as its value left aligned and space
padded on the right up to the width at list index i, with the fixed
default width 15 for every column whose index is past the configured
width list, each cell followed by the literal separator; values longer
than the width are printed whole, not truncated.  With widths 5,8 and a
four-column schema the columns use widths 5, 8, 15, 15. -/
theorem c6_render_widths :
    (∀ (pretty : List Char → List Char) (widths : List Nat) (v d : Bool)
        (headers vals : List (List Char)),
      headers.Nodup → headers.length = vals.length → dataKey ∉ headers →
      renderCells pretty widths v d (headers.zip vals) 0 headers =
        some (specCells vals widths 0)) ∧
    (∀ v1 v2 v3 v4 : List Char,
      specCells [v1, v2, v3, v4] [5, 8] 0 =
        [padColumn v1 5 ++ [' ', '|', ' '], padColumn v2 8 ++ [' ', '|', ' '],
         padColumn v3 15 ++ [' ', '|', ' '], padColumn v4 15 ++ [' ', '|', ' ']]) := by
  constructor
  · intro pretty widths v d headers vals hnd hlen hdk
    have hfst : (headers.zip vals).map Prod.fst = headers :=
      List.map_fst_zip headers vals (by omega)
    have hsnd : (headers.zip vals).map Prod.snd = vals :=
      List.map_snd_zip headers vals (by omega)
    have hall : ∀ hv ∈ headers.zip vals,
        lookupField (headers.zip vals) hv.1 = some hv.2 ∧ hv.1 ≠ dataKey := by
      intro hv hm
      rcases hv with ⟨k, w⟩
      refine ⟨lookupField_zip_nodup headers vals k w hnd hm, ?_⟩
      intro he
      exact hdk (he ▸ (List.of_mem_zip hm).1)
    have hform := renderCells_formula pretty widths v d (headers.zip vals)
      (headers.zip vals) 0 hall
    rw [hfst, hsnd] at hform
    exact hform
  · intro v1 v2 v3 v4
    rfl

/-- Witness for claim C6 on a four-column schema with widths 5,8. -/
theorem c6_render_widths_witness :
    renderCells (fun x => x) [5, 8] false false
      ([("C1").toList, ("C2").toList, ("C3").toList, ("C4").toList].zip
        [("aa").toList, ("bb").toList, ("cc").toList, ("dd").toList]) 0
      [("C1").toList, ("C2").toList, ("C3").toList, ("C4").toList] =
      some (specCells
        [("aa").toList, ("bb").toList, ("cc").toList, ("dd").toList] [5, 8] 0) :=
  c6_render_widths.1 (fun x => x) [5, 8] false false
    [("C1").toList, ("C2").toList, ("C3").toList, ("C4").toList]
    [("aa").toList, ("bb").toList, ("cc").toList, ("dd").toList]
    (by decide) (by decide) (by decide)

/-- Counterexample to claim C6 as stated: the format width pads but
never truncates.  A six-character value in a width-2 column yields a
nine-character cell, where truncation to the width would allow at most
the two value characters plus the three separator characters. -/
theorem c6_render_widths_cex :
    renderCells (fun x => x) [2] false false
      [(("A").toList, ("abcdef").toList)] 0 [("A").toList] =
      some [("abcdef | ").toList] ∧ (("abcdef | ").toList).length = 9 := by
  refine ⟨by decide, by decide⟩

/-- Claim C7 (amended): the schema extractor reads exactly one line from
the start of the source and fails (the expect panic, modelled none)
exactly when the source is unreadable; an empty readable source is not
an error: read_line returns zero bytes, and the extractor proceeds with
a schema holding one empty field name. -/
theorem c7_header_read :
    (∀ source : Option (List Char), extractSchema source = none ↔ source = none) ∧
    extractSchema (some []) = some [[]] := by
  constructor
  · intro s
    cases s <;> simp [extractSchema]
  · rfl

/-- Witness for claim C7: an unreadable source fails. -/
theorem c7_header_read_witness : extractSchema none = none :=
  (c7_header_read.1 none).mpr rfl

/-- Counterexample to claim C7 as stated: an empty source does not fail
with a read error; the extractor yields the one-empty-name schema. -/
theorem c7_header_read_cex :
    extractSchema (some []) = some [[]] ∧ extractSchema (some []) ≠ none := by
  refine ⟨rfl, by simp [extractSchema]⟩

theorem cycleOuts_length :
    ∀ (contents : List (List Char)) (p : Nat),
      (cycleOuts p contents).length = contents.length := by
  intro contents
  induction contents with
  | nil => intro p; rfl
  | cons c cs ih =>
    intro p
    simp [cycleOuts, ih]

/-- Claim C8 (amended): with no file argument, or a file that does not
exist, the program prints an error message and exits, but with exit
status zero, not non-zero, because both error paths return from main;
otherwise startup does not terminate and the program enters the poll
loop, which produces a cycle for every observed content without ever
reaching an exit. -/
theorem c8_exit_behavior (args : List (List Char)) (fileOk : List Char → Bool) :
    (args.length < 2 →
      mainStartup args fileOk = some 0 ∧ (startupMessage args fileOk).isSome = true) ∧
    (2 ≤ args.length → fileOk (args.getD 1 []) = false →
      mainStartup args fileOk = some 0 ∧ (startupMessage args fileOk).isSome = true) ∧
    (2 ≤ args.length → fileOk (args.getD 1 []) = true →
      mainStartup args fileOk = none ∧ startupMessage args fileOk = none ∧
      (∀ (contents : List (List Char)) (p : Nat),
        (cycleOuts p contents).length = contents.length)) := by
  refine ⟨?_, ?_, ?_⟩
  · intro h
    simp [mainStartup, startupMessage, h]
  · intro h1 h2
    have hn : ¬ (args.length < 2) := by omega
    constructor
    · unfold mainStartup
      rw [if_neg hn, if_pos h2]
    · unfold startupMessage
      rw [if_neg hn, if_pos h2]
      rfl
  · intro h1 h2
    have hn : ¬ (args.length < 2) := by omega
    have hff : ¬ (fileOk (args.getD 1 []) = false) := by
      rw [h2]
      simp
    refine ⟨?_, ?_, fun contents p => cycleOuts_length contents p⟩
    · unfold mainStartup
      rw [if_neg hn, if_neg hff]
    · unfold startupMessage
      rw [if_neg hn, if_neg hff]

/-- Witness for claim C8: a present file proceeds into the loop. -/
theorem c8_exit_behavior_witness :
    mainStartup [("log_viewer").toList, ("app.log").toList] (fun _ => true) = none ∧
    startupMessage [("log_viewer").toList, ("app.log").toList] (fun _ => true) = none ∧
    (∀ (contents : List (List Char)) (p : Nat),
      (cycleOuts p contents).length = contents.length) :=
  (c8_exit_behavior [("log_viewer").toList, ("app.log").toList] (fun _ => true)).2.2
    (by decide) rfl

/-- Counterexample to claim C8 as stated: both startup error paths end
the process with exit status zero, a successful outcome, because main
returns normally after printing the diagnostic. -/
theorem c8_exit_behavior_cex :
    mainStartup [("log_viewer").toList] (fun _ => true) = some 0 ∧
    mainStartup [("log_viewer").toList, ("x.log").toList] (fun _ => false) = some 0 := by
  refine ⟨rfl, rfl⟩

/-- Claim C9: the renderer indexes the field map at Level to pick the
row color before printing any cell and regardless of any filter
configuration; when the lookup fails the row rendering is the panic
(none) instead of output, and when it succeeds the row is the color
keyed by the uppercased Level value together with the cells. -/
theorem c9_render_level_lookup :
    (∀ (pretty : List Char → List Char) (widths : List Nat) (v d : Bool)
        (headers : List (List Char)) (fields : List (List Char × List Char)),
      lookupField fields levelKey = none →
      renderRow pretty widths v d headers fields = none) ∧
    (∀ (pretty : List Char → List Char) (widths : List Nat) (v d : Bool)
        (headers : List (List Char)) (fields : List (List Char × List Char))
        (lv : List Char) (cells : List (List Char)),
      lookupField fields levelKey = some lv →
      renderCells pretty widths v d fields 0 headers = some cells →
      renderRow pretty widths v d headers fields =
        some (get_color (upperAscii lv), cells ++ [['\n']])) := by
  constructor
  · intro pretty widths v d headers fields h
    simp [renderRow, h]
  · intro pretty widths v d headers fields lv cells h1 h2
    simp [renderRow, h1, h2]

/-- Witness for claim C9: a field map without Level panics the render. -/
theorem c9_render_level_lookup_witness :
    renderRow (fun x => x) [] false false [] [] = none :=
  c9_render_level_lookup.1 (fun x => x) [] false false [] [] rfl

/-! Lemmas for the truncation re-read claim. -/

theorem mem_of_mem_dropWhile {p : Char → Bool} :
    ∀ {l : List Char} {x : Char}, x ∈ l.dropWhile p → x ∈ l := by
  intro l
  induction l with
  | nil =>
    intro x h
    simp at h
  | cons a t ih =>
    intro x h
    by_cases hp : p a = true
    · rw [List.dropWhile_cons, if_pos hp] at h
      exact List.mem_cons_of_mem a (ih h)
    · rw [List.dropWhile_cons, if_neg hp] at h
      exact h

theorem mem_of_mem_trimList {s : List Char} {x : Char} (h : x ∈ trimList s) :
    x ∈ s := by
  unfold trimList at h
  have h1 := mem_of_mem_dropWhile h
  rw [List.mem_reverse] at h1
  have h2 := mem_of_mem_dropWhile h1
  rw [List.mem_reverse] at h2
  exact h2

theorem takeLine_shape :
    ∀ (c : List Char), ('\n' ∉ takeLine c) ∨
      (∃ w, takeLine c = w ++ ['\n'] ∧ '\n' ∉ w) := by
  intro c
  induction c with
  | nil => left; simp [takeLine]
  | cons ch t ih =>
    by_cases hc : ch = '\n'
    · right
      exact ⟨[], by simp [takeLine, hc], by simp⟩
    · rcases ih with h1 | ⟨w, hw, hnw⟩
      · left
        simp only [takeLine, if_neg hc, List.mem_cons]
        rintro (he | he)
        · exact hc he.symm
        · exact h1 he
      · right
        refine ⟨ch :: w, ?_, ?_⟩
        · simp [takeLine, hc, hw]
        · simp only [List.mem_cons]
          rintro (he | he)
          · exact hc he.symm
          · exact hnw he

theorem trimList_append_nl (w : List Char) :
    trimList (w ++ ['\n']) = trimList w := by
  unfold trimList
  rw [List.reverse_append]
  have h1 : (['\n'] : List Char).reverse ++ w.reverse = '\n' :: w.reverse := by simp
  rw [h1, List.dropWhile_cons, if_pos (by decide)]

theorem newline_not_mem_trim_takeLine (c : List Char) :
    '\n' ∉ trimList (takeLine c) := by
  rcases takeLine_shape c with h | ⟨w, hw, hnw⟩
  · intro hm
    exact h (mem_of_mem_trimList hm)
  · rw [hw, trimList_append_nl]
    intro hm
    exact hnw (mem_of_mem_trimList hm)

theorem readLines_zero_head (c : List Char) (h2 : 0 < c.length) :
    (readLines c 0).2.head? = some (takeLine c) := by
  have hne : c ≠ [] := by
    intro he
    rw [he] at h2
    simp at h2
  have hch : takeLine (c.drop 0) ≠ [] := by
    rw [List.drop_zero]
    exact takeLine_ne_nil hne
  simp only [readLines, Nat.sub_zero]
  simp only [readLinesF, if_neg hch]
  simp [List.drop_zero]

/-- Claim C10 (amended): after a truncation reset (observed size below
the cursor), the cycle reads from byte zero and the first raw line it
consumes is the first line of the file; when that line is the header
line, the matcher always matches it against the schema derived from it,
since it has exactly N segments, pairing every field name with itself;
and it is emitted as an output row whenever it passes the configured
filters, provided rendering succeeds, that is, provided the schema
contains a Level name, since the renderer otherwise panics on the color
lookup instead of emitting the row (this proviso is what the original
claim is missing). -/
theorem c10_truncation_header_reread (c : List Char) (p : Nat)
    (h1 : c.length < p) (h2 : 0 < c.length) :
    ((pollCycle c p).2.head? = some (takeLine c)) ∧
    (parse_line (splitPipe (trimList (takeLine c))) (trimList (takeLine c)) =
      some ((splitPipe (trimList (takeLine c))).zip
        (splitPipe (trimList (takeLine c))))) ∧
    (∀ (cfg : FilterCfg) (pretty : List Char → List Char) (widths : List Nat)
        (v d : Bool) (row : TermColor × List (List Char)),
      passes cfg ((splitPipe (trimList (takeLine c))).zip
          (splitPipe (trimList (takeLine c)))) (takeLine c) = some true →
      renderRow pretty widths v d (splitPipe (trimList (takeLine c)))
        ((splitPipe (trimList (takeLine c))).zip
          (splitPipe (trimList (takeLine c)))) = some row →
      processLine cfg pretty widths v d (splitPipe (trimList (takeLine c)))
        (takeLine c) = LineOutcome.emitted row) := by
  have hb := parse_line_self (trimList (takeLine c)) (newline_not_mem_trim_takeLine c)
  refine ⟨?_, hb, ?_⟩
  · have hz : pollCycle c p = readLines c 0 := by
      simp only [pollCycle]
      rw [if_pos h1, if_pos h2]
    rw [hz]
    exact readLines_zero_head c h2
  · intro cfg pretty widths v d row hp hr
    simp only [processLine, hb, hp, hr]

/-- Witness for claim C10 with the one-column header Level. -/
theorem c10_truncation_header_reread_witness :
    processLine cfg0 (fun x => x) [5] false false
      (splitPipe (trimList (takeLine (("Level\n").toList))))
      (takeLine (("Level\n").toList)) =
      LineOutcome.emitted (TermColor.reset, [("Level | ").toList, ['\n']]) :=
  (c10_truncation_header_reread (("Level\n").toList) 10 (by decide) (by decide)).2.2
    cfg0 (fun x => x) [5] false false
    (TermColor.reset, [("Level | ").toList, ['\n']]) (by decide) (by decide)

/-- Counterexample to claim C10 as stated: with header A|B and no
filters configured, the header row passes every filter, yet it is not
rendered as an output row; the loop body panics on the Level color
lookup, because the schema has no Level name. -/
theorem c10_truncation_header_reread_cex :
    passes cfg0
      ((splitPipe (trimList (takeLine (("A|B\n").toList)))).zip
        (splitPipe (trimList (takeLine (("A|B\n").toList)))))
      (takeLine (("A|B\n").toList)) = some true ∧
    processLine cfg0 (fun x => x) [] false false
      (splitPipe (trimList (takeLine (("A|B\n").toList))))
      (takeLine (("A|B\n").toList)) = LineOutcome.panic := by
  refine ⟨by decide, by decide⟩

end Rlog
